import Mathlib

/-!
Verification of the nginx log analyzer's ingestion-and-aggregation pipeline.

The development shallowly embeds the relevant Python sources:
* `src/nginx_log_analyzer/log_parser.py` — the filename locator
  (`LOG_FILENAME_PATTERN`, `find_latest_log`) and the line parser with its
  error-budget gate (`LOG_LINE_PATTERN`, `parse_log`);
* `src/nginx_log_analyzer/stats_calculator.py` — the per-URL accumulator
  (`URLStatistic`, `add_request`, `compute_metrics`) and `calculate_statistics`.

Modelling conventions:
* Python `str` is `List Char`; Python floats are exact rationals `ℚ`
  (the numeric claims are about the arithmetic, not binary rounding);
* raising an exception is `Except.error`;
* the two regular expressions are compiled to deterministic character-list
  parsers.  Every `X+`/`X*`/`X{n,m}` in the patterns is followed either by a
  character class disjoint from `X` or by the end of the pattern, so Python's
  backtracking matcher is equivalent to maximal munch; each step below is
  annotated with the regex fragment it implements.
-/

/-- Characters matched by Python's `\s` (ASCII range, which is all that the
log grammar and the claims exercise). -/
def pyIsSpace (c : Char) : Bool :=
  c = ' ' || c = '\t' || c = '\n' || c = '\x0b' || c = '\x0c' || c = '\r'

/-- Characters matched by Python's `\d` (ASCII digits). -/
def pyIsDigit (c : Char) : Bool :=
  '0' ≤ c && c ≤ '9'

/-- Match one literal character (a literal in the regex). -/
def litChar (c : Char) : List Char → Option (List Char)
  | [] => none
  | x :: xs => if x = c then some xs else none

/-- Match a literal character sequence (a literal substring in the regex). -/
def litStr : List Char → List Char → Option (List Char)
  | [], cs => some cs
  | _ :: _, [] => none
  | p :: ps, c :: cs => if c = p then litStr ps cs else none

/-- Maximal-munch `class+`: capture the (nonempty) maximal run of characters
satisfying `p` and return it with the remainder. -/
def chars1 (p : Char → Bool) (cs : List Char) : Option (List Char × List Char) :=
  let tok := cs.takeWhile p
  if tok = [] then none else some (tok, cs.dropWhile p)

/-- Like `chars1` but discarding the captured run (for non-captured `X+`). -/
def skip1 (p : Char → Bool) (cs : List Char) : Option (List Char) :=
  (chars1 p cs).map (·.2)

/-- One IPv4 octet of `LOG_LINE_PATTERN`: `\d{1,3}` followed in the pattern by
`\.` or `\s`, so the maximal digit run must have length 1–3. -/
def matchOctet (cs : List Char) : Option (List Char) := do
  let (ds, rest) ← chars1 pyIsDigit cs
  if ds.length ≤ 3 then some rest else none

/-- The alternation of HTTP verbs in `LOG_LINE_PATTERN`
(`GET|POST|PUT|DELETE|PATCH|OPTIONS|HEAD`); no verb is a prefix of another,
so the first matching alternative is the only possible one. -/
def httpMethods : List (List Char) :=
  [("GET").toList, ("POST").toList, ("PUT").toList, ("DELETE").toList,
   ("PATCH").toList, ("OPTIONS").toList, ("HEAD").toList]

/-- First alternative of `alts` that is a literal prefix of `cs`. -/
def matchAlt (alts : List (List Char)) (cs : List Char) : Option (List Char) :=
  match alts with
  | [] => none
  | a :: rest =>
    match litStr a cs with
    | some r => some r
    | none => matchAlt rest cs

/-- One quoted field `"[^"]*"` of `LOG_LINE_PATTERN` (capture unused by
`parse_log`, hence discarded). -/
def matchQuoted (cs : List Char) : Option (List Char) := do
  let r ← litChar '"' cs
  litChar '"' (r.dropWhile (fun c => c ≠ '"'))

/-- The trailing `(?P<request_time>\d+\.\d+)?` group: integer digits, a dot,
fraction digits.  Returns the two digit runs when the group participates. -/
def matchReqTime (cs : List Char) : Option (List Char × List Char) := do
  let (d1, r1) ← chars1 pyIsDigit cs
  let r2 ← litChar '.' r1
  let (d2, _) ← chars1 pyIsDigit r2
  some (d1, d2)

/-- Numeric value of a digit run (most significant first). -/
def digitsToNat (ds : List Char) : ℕ :=
  ds.foldl (fun n c => 10 * n + (c.toNat - 48)) 0

/-- Python `float` applied to the matched `\d+\.\d+` request-time text,
modelled exactly as a rational. -/
def pyFloat (d1 d2 : List Char) : ℚ :=
  (digitsToNat d1 : ℚ) + (digitsToNat d2 : ℚ) / (10 : ℚ) ^ d2.length

/-- Clause `(?P<remote_addr>\d{1,3}\.\d{1,3}\.\d{1,3}\.\d{1,3})\s+` of
`LOG_LINE_PATTERN`. -/
def matchAddr (cs : List Char) : Option (List Char) := do
  let r ← matchOctet cs
  let r ← litChar '.' r
  let r ← matchOctet r
  let r ← litChar '.' r
  let r ← matchOctet r
  let r ← litChar '.' r
  let r ← matchOctet r
  skip1 pyIsSpace r

/-- Clauses `(?P<remote_user>-|\S+)\s+` and `(?P<http_x_real_ip>-|\S+)\s+`
(the `-` branch is subsumed by `\S+`), then `\[(?P<time_local>[^\]]+)]\s+`. -/
def matchUserAndTime (cs : List Char) : Option (List Char) := do
  let r ← skip1 (fun c => !pyIsSpace c) cs
  let r ← skip1 pyIsSpace r
  let r ← skip1 (fun c => !pyIsSpace c) r
  let r ← skip1 pyIsSpace r
  let r ← litChar '[' r
  let r ← skip1 (fun c => c ≠ ']') r
  let r ← litChar ']' r
  skip1 pyIsSpace r

/-- Clauses `"(?P<method>GET|…|HEAD)\s+(?P<url>\S+)\s+HTTP/\d+\.\d+"\s+`;
returns the `url` capture together with the remainder. -/
def matchRequest (cs : List Char) : Option (List Char × List Char) := do
  let r ← litChar '"' cs
  let r ← matchAlt httpMethods r
  let r ← skip1 pyIsSpace r
  let (url, r) ← chars1 (fun c => !pyIsSpace c) r
  let r ← skip1 pyIsSpace r
  let r ← litStr (("HTTP/").toList) r
  let r ← skip1 pyIsDigit r
  let r ← litChar '.' r
  let r ← skip1 pyIsDigit r
  let r ← litChar '"' r
  let r ← skip1 pyIsSpace r
  some (url, r)

/-- Clauses `(?P<status>\d{3})\s+(?P<body_bytes_sent>\d+|-)\s+`
(an adjacent fourth status digit would make `\s+` fail). -/
def matchStatusBytes (cs : List Char) : Option (List Char) := do
  let (st, r) ← chars1 pyIsDigit cs
  let r ← if st.length = 3 then skip1 pyIsSpace r else none
  let r ← (match chars1 pyIsDigit r with
           | some (_, rest) => some rest
           | none => litChar '-' r)
  skip1 pyIsSpace r

/-- The four quoted header fields, each `"[^"]*"\s+`, followed by
`"(?P<http_x_rb_user>[^"]*)"\s*`. -/
def matchHeaders (cs : List Char) : Option (List Char) := do
  let r ← matchQuoted cs
  let r ← skip1 pyIsSpace r
  let r ← matchQuoted r
  let r ← skip1 pyIsSpace r
  let r ← matchQuoted r
  let r ← skip1 pyIsSpace r
  let r ← matchQuoted r
  let r ← skip1 pyIsSpace r
  let r ← matchQuoted r
  some (r.dropWhile pyIsSpace)

/-- `LOG_LINE_PATTERN.match` on a (stripped) line, compiled clause by clause
from `log_parser.py`.  Returns the `url` capture and the optional
`request_time` capture — the only two groups `parse_log` reads.  `re.match`
anchors at the start only; trailing text after the pattern is ignored, and
absence of the optional trailing `request_time` group still yields a match
(with the group not participating). -/
def matchLogLine (cs : List Char) : Option (List Char × Option ℚ) := do
  let r ← matchAddr cs
  let r ← matchUserAndTime r
  let (url, r) ← matchRequest r
  let r ← matchStatusBytes r
  let r ← matchHeaders r
  match matchReqTime r with
  | some (d1, d2) => some (url, some (pyFloat d1 d2))
  | none => some (url, none)

/-- Python `str.strip()`: drop whitespace from both ends (`line.strip()` in
`parse_log`). -/
def pyStrip (cs : List Char) : List Char :=
  ((cs.dropWhile pyIsSpace).reverse.dropWhile pyIsSpace).reverse

/-- The `ParsedLogEntry` namedtuple of `log_parser.py`. -/
structure ParsedLogEntry where
  url : List Char
  request_time : ℚ
deriving DecidableEq

/-- Exceptions that can escape `parse_log`:
* `typeError` — `float(None)` when the line matched structurally but the
  optional `request_time` group did not participate;
* `thresholdExceeded` — the `ValueError` raised when the error rate exceeds
  the threshold; its message is formatted from exactly the rate and the
  threshold (`total_lines` and `errors` are only logged, not carried). -/
inductive LogParseError where
  | typeError
  | thresholdExceeded (error_rate error_threshold : ℚ)
deriving DecidableEq

/-- The per-line loop of `parse_log`: returns `(total_lines, errors, parsed
entries in order)`, or the exception that aborts the iteration. -/
def parseLines : List (List Char) → Except LogParseError (ℕ × ℕ × List ParsedLogEntry)
  | [] => .ok (0, 0, [])
  | line :: rest =>
    match matchLogLine (pyStrip line) with
    | some (u, some rt) =>
      match parseLines rest with
      | .ok (t, e, es) => .ok (t + 1, e, ⟨u, rt⟩ :: es)
      | .error err => .error err
    | some (_, none) => .error .typeError
    | none =>
      match parseLines rest with
      | .ok (t, e, es) => .ok (t + 1, e + 1, es)
      | .error err => .error err

/-- `parse_log` from `log_parser.py`, consumed to a list the way `main.py`
and the tests consume it (`list(parse_log(...))`): process every line, then
apply the empty-input guard and the error-budget gate. -/
def parse_log (lines : List (List Char)) (error_threshold : ℚ) :
    Except LogParseError (List ParsedLogEntry) :=
  match parseLines lines with
  | .error err => .error err
  | .ok (total_lines, errors, entries) =>
    if total_lines = 0 then .ok []
    else if (errors : ℚ) / (total_lines : ℚ) > error_threshold then
      .error (.thresholdExceeded ((errors : ℚ) / (total_lines : ℚ)) error_threshold)
    else .ok entries

/-- The `LogFileType` enumeration of `log_parser.py`. -/
inductive LogFileType where
  | plain
  | gz
deriving DecidableEq

/-- The literal prefix of `LOG_FILENAME_PATTERN = nginx-access-ui\.log-(\d{8})(\.gz)?$`. -/
def logNameLit : List Char := ("nginx-access-ui.log-").toList

/-- `LOG_FILENAME_PATTERN.match(file.name)`: the literal prefix, then the
8-digit capture, then an optional literal `.gz`, then end of name (`$`).
Returns the date capture and whether the `.gz` group participated.  With the
end anchor the whole name is consumed, so the match conditions are exactly
length/character checks on the remainder after the literal prefix. -/
def matchLogFilename (name : List Char) : Option (List Char × Bool) :=
  match litStr logNameLit name with
  | none => none
  | some rest =>
    if rest.length = 8 ∧ rest.all pyIsDigit then some (rest, false)
    else if rest.length = 11 ∧ (rest.take 8).all pyIsDigit ∧ rest.drop 8 = (".gz").toList then
      some (rest.take 8, true)
    else none

/-- Gregorian leap-year rule used by `datetime`. -/
def isLeapYear (y : ℕ) : Bool :=
  y % 4 = 0 && (y % 100 ≠ 0 || y % 400 = 0)

/-- Length of a month per `datetime`. -/
def daysInMonth (y m : ℕ) : ℕ :=
  if m = 2 then (if isLeapYear y then 29 else 28)
  else if m = 4 ∨ m = 6 ∨ m = 9 ∨ m = 11 then 30 else 31

/-- `datetime.strptime(date_str, '%Y%m%d')` on an 8-digit string, split as
`YYYY`/`MM`/`DD`.  `%m` and `%d` can also match a single digit, but any such
split leaves unconverted characters in an 8-digit input and `strptime` then
raises, so the 4/2/2 split is the only way the call can succeed; it does
succeed exactly when the fields form a real calendar date (`datetime`
requires `year ≥ 1`, `1 ≤ month ≤ 12`, `1 ≤ day ≤` month length; the `%m`
regex also rejects month `00`/`> 12` and the `%d` regex day `00`/`> 31`,
which the calendar condition subsumes).  `none` models the `ValueError`. -/
def strptimeYmd (ds : List Char) : Option (ℕ × ℕ × ℕ) :=
  let y := digitsToNat (ds.take 4)
  let m := digitsToNat ((ds.drop 4).take 2)
  let d := digitsToNat (ds.drop 6)
  if 1 ≤ y ∧ 1 ≤ m ∧ m ≤ 12 ∧ 1 ≤ d ∧ d ≤ daysInMonth y m then some (y, m, d) else none

/-- The `LogFileMetadata` dataclass (the `path` field is represented by the
file's name, the only part of the path the locator logic inspects). -/
structure LogFileMetadata where
  name : List Char
  date : ℕ × ℕ × ℕ
  file_type : LogFileType
deriving DecidableEq

/-- Numeric key giving the `datetime` comparison order: for parsed dates the
month and day are below 100, so this encoding is order-isomorphic to the
lexicographic (year, month, day) comparison `max` performs. -/
def dateKey : ℕ × ℕ × ℕ → ℕ
  | (y, m, d) => (y * 100 + m) * 100 + d

/-- The scanning loop of `find_latest_log`: collect `LogFileMetadata` for
every name matching `LOG_FILENAME_PATTERN`, in listing order.  A matching
name whose date `strptime` cannot parse raises `ValueError` (modelled as
`Except.error ()`); there is no handler in `find_latest_log`. -/
def collectLogFiles : List (List Char) → Except Unit (List LogFileMetadata)
  | [] => .ok []
  | name :: rest =>
    match matchLogFilename name with
    | none => collectLogFiles rest
    | some (ds, gz) =>
      match strptimeYmd ds with
      | none => .error ()
      | some ymd =>
        match collectLogFiles rest with
        | .ok files => .ok (⟨name, ymd, if gz then .gz else .plain⟩ :: files)
        | .error e => .error e

/-- Python's `max(log_files, key=lambda log_meta: log_meta.date)`: keep the
current maximum, replacing it only on a strictly later date (so the first
maximum wins ties, as `max` does). -/
def maxByDate (best : LogFileMetadata) : List LogFileMetadata → LogFileMetadata
  | [] => best
  | f :: rest => maxByDate (if dateKey best.date < dateKey f.date then f else best) rest

/-- `find_latest_log` from `log_parser.py`, over the directory listing
(`log_dir.iterdir()` yields the file names). -/
def find_latest_log (listing : List (List Char)) : Except Unit (Option LogFileMetadata) :=
  match collectLogFiles listing with
  | .error e => .error e
  | .ok [] => .ok none
  | .ok (f :: fs) => .ok (some (maxByDate f fs))

/-- The `URLStatistic` accumulator dataclass of `stats_calculator.py`. -/
structure URLStatistic where
  url : List Char
  count : ℕ
  time_sum : ℚ
  times : List ℚ
deriving DecidableEq

/-- `URLStatistic.add_request`. -/
def add_request (s : URLStatistic) (request_time : ℚ) : URLStatistic :=
  { s with
    count := s.count + 1
    time_sum := s.time_sum + request_time
    times := s.times ++ [request_time] }

/-- One step of the accumulation loop of `calculate_statistics`.  The Python
`dict` keyed by URL, in insertion order, is modelled as a list of
accumulators with pairwise-distinct URLs: a new URL is appended with the
default field values of the dataclass, an existing URL's (unique)
accumulator is updated in place. -/
def insertEntry : List URLStatistic → ParsedLogEntry → List URLStatistic
  | [], e => [add_request ⟨e.url, 0, 0, []⟩ e.request_time]
  | s :: rest, e =>
    if s.url = e.url then add_request s e.request_time :: rest
    else s :: insertEntry rest e

/-- The full accumulation loop (`for entry in data: ...`). -/
def accumulate (data : List ParsedLogEntry) : List URLStatistic :=
  data.foldl insertEntry []

/-- Python `max(list)` for a nonempty list of floats (`max(self.times)`);
the `0.0` for the empty list mirrors the guarded fallback at the call
sites. -/
def maxQ : List ℚ → ℚ
  | [] => 0
  | x :: xs => xs.foldl max x

/-- `sorted(data)` on floats, as used by `statistics.median`. -/
def sortQ (l : List ℚ) : List ℚ :=
  List.insertionSort (· ≤ ·) l

/-- `statistics.median`: sort, then take the middle element (odd length) or
the mean of the two middle elements (even length).  `statistics.median`
raises on an empty input; both call sites guard with `if self.times`, so the
`0` returned here for `[]` is never exercised. -/
def medianQ (l : List ℚ) : ℚ :=
  let s := sortQ l
  let n := l.length
  if n = 0 then 0
  else if n % 2 = 1 then s.getD (n / 2) 0
  else (s.getD (n / 2 - 1) 0 + s.getD (n / 2) 0) / 2

/-- The `StatisticEntry` record of `stats_calculator.py`. -/
structure StatisticEntry where
  url : List Char
  count : ℕ
  count_perc : ℚ
  time_sum : ℚ
  time_perc : ℚ
  time_avg : ℚ
  time_max : ℚ
  time_med : ℚ
deriving DecidableEq

/-- `URLStatistic.compute_metrics`.  Python truthiness guards (`if
total_requests`, `if total_time`, `if self.count`, `if self.times`) become
the corresponding nonzero/nonempty tests. -/
def compute_metrics (s : URLStatistic) (total_requests : ℕ) (total_time : ℚ) :
    StatisticEntry :=
  { url := s.url
    count := s.count
    count_perc := if total_requests ≠ 0 then ((s.count : ℚ) / (total_requests : ℚ)) * 100 else 0
    time_sum := s.time_sum
    time_perc := if total_time ≠ 0 then (s.time_sum / total_time) * 100 else 0
    time_avg := if s.count ≠ 0 then s.time_sum / (s.count : ℚ) else 0
    time_max := if s.times ≠ [] then maxQ s.times else 0
    time_med := if s.times ≠ [] then medianQ s.times else 0 }

/-- The descending `time_sum` comparison of the final
`sorted(..., key=lambda x: x['time_sum'], reverse=True)`. -/
def statGE (a b : StatisticEntry) : Prop :=
  b.time_sum ≤ a.time_sum

instance : DecidableRel statGE :=
  fun a b => inferInstanceAs (Decidable (b.time_sum ≤ a.time_sum))

instance : IsTotal StatisticEntry statGE :=
  ⟨fun a b => (le_total b.time_sum a.time_sum).imp id id⟩

instance : IsTrans StatisticEntry statGE :=
  ⟨fun _ _ _ hab hbc => le_trans hbc hab⟩

/-- `calculate_statistics` from `stats_calculator.py`: accumulate, compute
the per-URL metrics against `total_requests = len(data)` and `total_time =
sum(entry.request_time ...)`, and sort by `time_sum` descending (Python's
stable sort with `reverse=True` is insertion sort with the `statGE`
comparison). -/
def calculate_statistics (data : List ParsedLogEntry) : List StatisticEntry :=
  List.insertionSort statGE
    ((accumulate data).map
      (fun s => compute_metrics s data.length (data.map (·.request_time)).sum))

/-! Observation functions used to state the claims, and lemma scaffolding. -/

/-- The duration collection of one URL in an observation sequence, in
arrival order. -/
def durationsOf (u : List Char) (data : List ParsedLogEntry) : List ℚ :=
  (data.filter (fun e => decide (e.url = u))).map (·.request_time)

/-- The accumulator an URL with duration collection `ts` must carry. -/
def mkStat (u : List Char) (ts : List ℚ) : URLStatistic :=
  ⟨u, ts.length, ts.sum, ts⟩

/-- Lookup of the first accumulator with the given URL (the unique one,
since the accumulator list models a `dict`). -/
def findStat (u : List Char) : List URLStatistic → Option URLStatistic
  | [] => none
  | s :: rest => if s.url = u then some s else findStat u rest

/-- The effect of one matching observation on the looked-up accumulator. -/
def stepStat (u : List Char) (acc : Option URLStatistic) (rt : ℚ) : Option URLStatistic :=
  some (add_request (acc.getD ⟨u, 0, 0, []⟩) rt)

/-- Total of the `count` fields. -/
def sumCounts (l : List URLStatistic) : ℕ :=
  (l.map (·.count)).sum

/-- Total of the `time_sum` fields. -/
def sumTimes (l : List URLStatistic) : ℚ :=
  (l.map (·.time_sum)).sum

/-- The URLs of the accumulators, in insertion order. -/
def urlsOf (l : List URLStatistic) : List (List Char) :=
  l.map (·.url)

/-- Decidable form of "if this directory entry matches the filename pattern,
its embedded date parses as a calendar date". -/
def validFilenameDate (name : List Char) : Bool :=
  match matchLogFilename name with
  | none => true
  | some p => (strptimeYmd p.1).isSome

/-! Concrete inputs used by the counterexamples and witnesses.  The log
lines are the fixtures of `tests/test_log_parser.py`. -/

/-- A line matching no structural prefix of the grammar. -/
def invLine : List Char := ("INVALID LOG LINE").toList

/-- A fully well-formed log line with request time `0.150`. -/
def validGateLine : List Char :=
  ("1.1.1.1 - - [01/Jan/2024:10:00:00 +0000] \"GET /api/data HTTP/1.1\" 200 123 \"-\" \"-\" \"-\" \"-\" \"-\" 0.150").toList

/-- The same line with the trailing request-duration field removed: the
structural prefix still matches, the optional `request_time` group does
not participate. -/
def noDurLine : List Char :=
  ("1.1.1.1 - - [01/Jan/2024:10:00:00 +0000] \"GET /api/data HTTP/1.1\" 200 123 \"-\" \"-\" \"-\" \"-\" \"-\"").toList

/-- The locator listing of the spec's testable property: four dated names,
the newest valid one compressed, an even newer `.bz2` name that must not
match. -/
def exListing : List (List Char) :=
  [("nginx-access-ui.log-20250210").toList,
   ("nginx-access-ui.log-20250212").toList,
   ("nginx-access-ui.log-20250214.gz").toList,
   ("nginx-access-ui.log-20250216.bz2").toList]

/-- A listing with one well-dated name and one pattern-matching name whose
date has month `99`. -/
def badMonthListing : List (List Char) :=
  [("nginx-access-ui.log-20250101").toList,
   ("nginx-access-ui.log-20259999").toList]

/-- Three observations of one URL with durations `1.0`, `1.5`, `2.0`. -/
def exHome : List ParsedLogEntry :=
  [⟨("/home").toList, 1⟩, ⟨("/home").toList, 3/2⟩, ⟨("/home").toList, 2⟩]

/-- Three observations of one URL with durations `0.2`, `0.3`, `0.5`. -/
def exApiTest : List ParsedLogEntry :=
  [⟨("/api/test").toList, 1/5⟩, ⟨("/api/test").toList, 3/10⟩, ⟨("/api/test").toList, 1/2⟩]

/-- Two observations of one URL, an even-sized duration collection. -/
def exEven : List ParsedLogEntry :=
  [⟨("/a").toList, 1⟩, ⟨("/a").toList, 2⟩]

/-- Observations of two URLs with distinct duration sums. -/
def exTwo : List ParsedLogEntry :=
  [⟨("/a").toList, 3⟩, ⟨("/b").toList, 1⟩, ⟨("/b").toList, 5⟩]

/-! Lemmas about the filename locator. -/

theorem litStr_append (p cs : List Char) : litStr p (p ++ cs) = some cs := by
  induction p with
  | nil => rfl
  | cons c p ih => simp [litStr, ih]

theorem matchLogFilename_bz2_aux (d8 : List Char) :
    matchLogFilename (logNameLit ++ (d8 ++ (".bz2").toList)) = none := by
  have hall : (d8 ++ (".bz2").toList).all pyIsDigit = false := by
    have hs : ((".bz2").toList).all pyIsDigit = false := by decide
    rw [List.all_append, hs, Bool.and_false]
  simp only [matchLogFilename, litStr_append]
  rw [if_neg, if_neg]
  · rintro ⟨hlen, _, hdrop⟩
    have hd8 : d8.length = 7 := by
      simp only [List.length_append] at hlen
      simp at hlen
      omega
    rw [List.drop_append_eq_append_drop, List.drop_eq_nil_of_le (by omega), hd8] at hdrop
    simp at hdrop
  · rintro ⟨_, hdig⟩
    rw [hall] at hdig
    cases hdig

theorem validFilenameDate_some {name : List Char} {p : List Char × Bool}
    (hv : validFilenameDate name = true) (hp : matchLogFilename name = some p) :
    ∃ ymd, strptimeYmd p.1 = some ymd := by
  unfold validFilenameDate at hv
  rw [hp] at hv
  exact Option.isSome_iff_exists.mp hv

theorem collectLogFiles_all_none (L : List (List Char))
    (h : ∀ name ∈ L, matchLogFilename name = none) : collectLogFiles L = .ok [] := by
  induction L with
  | nil => rfl
  | cons name rest ih =>
    have hn := h name (List.mem_cons_self name rest)
    simp only [collectLogFiles, hn]
    exact ih (fun x hx => h x (List.mem_cons_of_mem name hx))

theorem collectLogFiles_ok (L : List (List Char))
    (hval : ∀ name ∈ L, validFilenameDate name = true) :
    ∃ files, collectLogFiles L = .ok files ∧
      (∀ f ∈ files, f.name ∈ L ∧ ∃ p : List Char × Bool,
        matchLogFilename f.name = some p ∧ strptimeYmd p.1 = some f.date) ∧
      (∀ name ∈ L, ∀ p : List Char × Bool, matchLogFilename name = some p →
        ∀ ymd, strptimeYmd p.1 = some ymd → ∃ f ∈ files, f.name = name ∧ f.date = ymd) := by
  induction L with
  | nil => exact ⟨[], rfl, by simp, by simp⟩
  | cons name rest ih =>
    obtain ⟨files, hcoll, hA, hB⟩ :=
      ih (fun x hx => hval x (List.mem_cons_of_mem name hx))
    cases hm : matchLogFilename name with
    | none =>
      refine ⟨files, ?_, ?_, ?_⟩
      · simp only [collectLogFiles, hm]
        exact hcoll
      · intro f hf
        obtain ⟨hfl, hrest⟩ := hA f hf
        exact ⟨List.mem_cons_of_mem name hfl, hrest⟩
      · intro x hx p hp ymd hymd
        rcases List.mem_cons.mp hx with rfl | hx2
        · rw [hm] at hp; cases hp
        · exact hB x hx2 p hp ymd hymd
    | some q =>
      obtain ⟨ds, gz⟩ := q
      obtain ⟨ymd, hymd⟩ :=
        validFilenameDate_some (hval name (List.mem_cons_self name rest)) hm
      refine ⟨⟨name, ymd, if gz then .gz else .plain⟩ :: files, ?_, ?_, ?_⟩
      · simp only [collectLogFiles, hm, hymd, hcoll]
      · intro f hf
        rcases List.mem_cons.mp hf with rfl | hf2
        · exact ⟨List.mem_cons_self name rest, ⟨ds, gz⟩, hm, hymd⟩
        · obtain ⟨hfl, hrest⟩ := hA f hf2
          exact ⟨List.mem_cons_of_mem name hfl, hrest⟩
      · intro x hx p hp ymd2 hymd2
        rcases List.mem_cons.mp hx with rfl | hx2
        · rw [hm] at hp
          obtain rfl := Option.some.inj hp
          rw [hymd] at hymd2
          obtain rfl := Option.some.inj hymd2
          exact ⟨⟨x, ymd, if gz then .gz else .plain⟩, List.mem_cons_self _ _, rfl, rfl⟩
        · obtain ⟨f, hf, hfn, hfd⟩ := hB x hx2 p hp ymd2 hymd2
          exact ⟨f, List.mem_cons_of_mem _ hf, hfn, hfd⟩

theorem maxByDate_mem (fs : List LogFileMetadata) :
    ∀ best, maxByDate best fs ∈ best :: fs := by
  induction fs with
  | nil => intro best; simp [maxByDate]
  | cons f rest ih =>
    intro best
    simp only [maxByDate]
    have h := ih (if dateKey best.date < dateKey f.date then f else best)
    rcases List.mem_cons.mp h with he | hr
    · rw [he]
      split
      · exact List.mem_cons_of_mem _ (List.mem_cons_self _ _)
      · exact List.mem_cons_self _ _
    · exact List.mem_cons_of_mem _ (List.mem_cons_of_mem _ hr)

theorem maxByDate_ge (fs : List LogFileMetadata) :
    ∀ best g, g ∈ best :: fs → dateKey g.date ≤ dateKey (maxByDate best fs).date := by
  induction fs with
  | nil =>
    intro best g hg
    rcases List.mem_cons.mp hg with rfl | h
    · exact le_refl _
    · cases h
  | cons f rest ih =>
    intro best g hg
    simp only [maxByDate]
    have hbest : dateKey best.date ≤
        dateKey ((if dateKey best.date < dateKey f.date then f else best).date) := by
      split
      · exact le_of_lt (by assumption)
      · exact le_refl _
    have hf : dateKey f.date ≤
        dateKey ((if dateKey best.date < dateKey f.date then f else best).date) := by
      split
      · exact le_refl _
      · omega
    have hself := ih (if dateKey best.date < dateKey f.date then f else best) _
      (List.mem_cons_self _ _)
    rcases List.mem_cons.mp hg with rfl | hg2
    · exact le_trans hbest hself
    · rcases List.mem_cons.mp hg2 with rfl | hg3
      · exact le_trans hf hself
      · exact ih _ g (List.mem_cons_of_mem _ hg3)

/-! Lemmas about the per-URL accumulation. -/

theorem add_request_url (s : URLStatistic) (rt : ℚ) : (add_request s rt).url = s.url := rfl

theorem add_request_mkStat (u : List Char) (ts : List ℚ) (rt : ℚ) :
    add_request (mkStat u ts) rt = mkStat u (ts ++ [rt]) := by
  simp [add_request, mkStat, List.sum_append]

theorem findStat_cons (x : URLStatistic) (rest : List URLStatistic) (u : List Char) :
    findStat u (x :: rest) = if x.url = u then some x else findStat u rest := rfl

theorem insertEntry_cons (s : URLStatistic) (rest : List URLStatistic) (e : ParsedLogEntry) :
    insertEntry (s :: rest) e =
      if s.url = e.url then add_request s e.request_time :: rest
      else s :: insertEntry rest e := rfl

theorem urlsOf_cons (s : URLStatistic) (rest : List URLStatistic) :
    urlsOf (s :: rest) = s.url :: urlsOf rest := rfl

theorem insertEntry_sumCounts (stats : List URLStatistic) (e : ParsedLogEntry) :
    sumCounts (insertEntry stats e) = sumCounts stats + 1 := by
  induction stats with
  | nil => simp [insertEntry, sumCounts, add_request]
  | cons s rest ih =>
    rw [insertEntry_cons]
    by_cases h : s.url = e.url
    · rw [if_pos h]
      simp only [sumCounts, List.map_cons, List.sum_cons, add_request]
      omega
    · rw [if_neg h]
      simp only [sumCounts, List.map_cons, List.sum_cons] at ih ⊢
      omega

theorem insertEntry_sumTimes (stats : List URLStatistic) (e : ParsedLogEntry) :
    sumTimes (insertEntry stats e) = sumTimes stats + e.request_time := by
  induction stats with
  | nil => simp [insertEntry, sumTimes, add_request]
  | cons s rest ih =>
    rw [insertEntry_cons]
    by_cases h : s.url = e.url
    · rw [if_pos h]
      simp only [sumTimes, List.map_cons, List.sum_cons, add_request]
      ring
    · rw [if_neg h]
      simp only [sumTimes, List.map_cons, List.sum_cons] at ih ⊢
      rw [ih]
      ring

theorem insertEntry_urls (stats : List URLStatistic) (e : ParsedLogEntry) :
    urlsOf (insertEntry stats e) =
      if e.url ∈ urlsOf stats then urlsOf stats else urlsOf stats ++ [e.url] := by
  induction stats with
  | nil => simp [insertEntry, urlsOf, add_request]
  | cons s rest ih =>
    rw [insertEntry_cons]
    by_cases h : s.url = e.url
    · rw [if_pos h, urlsOf_cons, urlsOf_cons, add_request_url, if_pos]
      exact List.mem_cons.mpr (Or.inl h.symm)
    · have hne : e.url ≠ s.url := fun hc => h hc.symm
      rw [if_neg h, urlsOf_cons, urlsOf_cons, ih]
      have hiff : (e.url ∈ s.url :: urlsOf rest) ↔ e.url ∈ urlsOf rest := by
        simp [List.mem_cons, hne]
      by_cases hm : e.url ∈ urlsOf rest
      · rw [if_pos hm, if_pos (hiff.mpr hm)]
      · rw [if_neg hm, if_neg (fun hc => hm (hiff.mp hc))]
        simp

theorem findStat_insertEntry (stats : List URLStatistic) (e : ParsedLogEntry)
    (u : List Char) :
    findStat u (insertEntry stats e) =
      if u = e.url then
        some (add_request ((findStat u stats).getD ⟨e.url, 0, 0, []⟩) e.request_time)
      else findStat u stats := by
  induction stats with
  | nil =>
    by_cases h : u = e.url
    · subst h
      simp [insertEntry, findStat, add_request_url]
    · have hne : ¬ e.url = u := fun hc => h hc.symm
      simp [insertEntry, findStat, add_request_url, h, hne]
  | cons s rest ih =>
    rw [insertEntry_cons]
    by_cases hs : s.url = e.url
    · rw [if_pos hs, findStat_cons, add_request_url, findStat_cons]
      by_cases hu : u = e.url
      · have hsu : s.url = u := by rw [hs, hu]
        rw [if_pos hsu, if_pos hsu, if_pos hu]
        rfl
      · have hsu : ¬ s.url = u := fun hc => hu (hc.symm.trans hs)
        rw [if_neg hsu, if_neg hsu, if_neg hu]
    · rw [if_neg hs, findStat_cons, findStat_cons, ih]
      by_cases hsu : s.url = u
      · have hu : ¬ u = e.url := fun hc => hs (hsu.trans hc)
        rw [if_pos hsu, if_pos hsu, if_neg hu]
      · simp only [if_neg hsu]

theorem durationsOf_cons (u : List Char) (e : ParsedLogEntry) (rest : List ParsedLogEntry) :
    durationsOf u (e :: rest) =
      if e.url = u then e.request_time :: durationsOf u rest else durationsOf u rest := by
  by_cases h : e.url = u <;> simp [durationsOf, h]

theorem findStat_foldl (data : List ParsedLogEntry) :
    ∀ (stats : List URLStatistic) (u : List Char),
      findStat u (List.foldl insertEntry stats data) =
        (durationsOf u data).foldl (stepStat u) (findStat u stats) := by
  induction data with
  | nil => intro stats u; simp [durationsOf]
  | cons e rest ih =>
    intro stats u
    rw [List.foldl_cons, ih, durationsOf_cons, findStat_insertEntry]
    by_cases h : e.url = u
    · subst h
      rw [if_pos rfl, if_pos rfl, List.foldl_cons]
      rfl
    · rw [if_neg h, if_neg (fun hc => h hc.symm)]

theorem foldl_stepStat (u : List Char) (ds : List ℚ) :
    ∀ ts, ds.foldl (stepStat u) (some (mkStat u ts)) = some (mkStat u (ts ++ ds)) := by
  induction ds with
  | nil => intro ts; simp
  | cons d rest ih =>
    intro ts
    rw [List.foldl_cons, show stepStat u (some (mkStat u ts)) d = some (mkStat u (ts ++ [d]))
      from by simp [stepStat, add_request_mkStat], ih]
    simp

theorem findStat_accumulate (data : List ParsedLogEntry) (u : List Char) :
    findStat u (accumulate data) =
      if durationsOf u data = [] then none else some (mkStat u (durationsOf u data)) := by
  rw [accumulate, findStat_foldl]
  cases hds : durationsOf u data with
  | nil => simp [findStat]
  | cons d rest =>
    rw [if_neg (by simp)]
    have h0 : findStat u ([] : List URLStatistic) = none := rfl
    have h1 : stepStat u none d = some (mkStat u [d]) := by
      simp [stepStat, mkStat, add_request]
    rw [h0, List.foldl_cons, h1, foldl_stepStat]
    simp

theorem accumulate_nodup (data : List ParsedLogEntry) :
    (urlsOf (accumulate data)).Nodup := by
  suffices h : ∀ (stats : List URLStatistic), (urlsOf stats).Nodup →
      (urlsOf (List.foldl insertEntry stats data)).Nodup by
    exact h [] (by simp [urlsOf])
  induction data with
  | nil => intro stats h; exact h
  | cons e rest ih =>
    intro stats h
    rw [List.foldl_cons]
    refine ih _ ?_
    rw [insertEntry_urls]
    by_cases hm : e.url ∈ urlsOf stats
    · rw [if_pos hm]; exact h
    · rw [if_neg hm]
      simp [List.nodup_append, h, hm]

theorem findStat_of_mem (stats : List URLStatistic) (s : URLStatistic)
    (hmem : s ∈ stats) (hnd : (urlsOf stats).Nodup) : findStat s.url stats = some s := by
  induction stats with
  | nil => cases hmem
  | cons x rest ih =>
    rcases List.mem_cons.mp hmem with rfl | h2
    · simp [findStat]
    · have hx : ¬ x.url = s.url := by
        intro hxe
        have hmu : s.url ∈ urlsOf rest := List.mem_map_of_mem (·.url) h2
        have hnm : x.url ∉ urlsOf rest := by
          have h3 := hnd
          simp only [urlsOf, List.map_cons, List.nodup_cons] at h3
          exact h3.1
        rw [hxe] at hnm
        exact hnm hmu
      have hnd2 : (urlsOf rest).Nodup := by
        simp only [urlsOf, List.map_cons, List.nodup_cons] at hnd
        exact hnd.2
      simp [findStat, hx, ih h2 hnd2]

theorem mem_accumulate_eq (data : List ParsedLogEntry) (s : URLStatistic)
    (hmem : s ∈ accumulate data) :
    s = mkStat s.url (durationsOf s.url data) ∧ durationsOf s.url data ≠ [] := by
  have h1 := findStat_of_mem _ s hmem (accumulate_nodup data)
  rw [findStat_accumulate] at h1
  by_cases h : durationsOf s.url data = []
  · rw [if_pos h] at h1; cases h1
  · rw [if_neg h] at h1
    exact ⟨(Option.some.inj h1).symm, h⟩

theorem accumulate_sumCounts (data : List ParsedLogEntry) :
    sumCounts (accumulate data) = data.length := by
  suffices h : ∀ (stats : List URLStatistic),
      sumCounts (List.foldl insertEntry stats data) = sumCounts stats + data.length by
    have h2 := h []
    simpa [sumCounts] using h2
  induction data with
  | nil => intro stats; simp
  | cons e rest ih =>
    intro stats
    rw [List.foldl_cons, ih, insertEntry_sumCounts]
    simp
    omega

theorem accumulate_sumTimes (data : List ParsedLogEntry) :
    sumTimes (accumulate data) = (data.map (·.request_time)).sum := by
  suffices h : ∀ (stats : List URLStatistic),
      sumTimes (List.foldl insertEntry stats data) =
        sumTimes stats + (data.map (·.request_time)).sum by
    have h2 := h []
    simpa [sumTimes] using h2
  induction data with
  | nil => intro stats; simp
  | cons e rest ih =>
    intro stats
    rw [List.foldl_cons, ih, insertEntry_sumTimes]
    simp
    ring

theorem accumulate_urls_mem (data : List ParsedLogEntry) (u : List Char) :
    u ∈ urlsOf (accumulate data) ↔ u ∈ data.map (·.url) := by
  suffices h : ∀ (stats : List URLStatistic),
      (u ∈ urlsOf (List.foldl insertEntry stats data) ↔
        u ∈ urlsOf stats ∨ u ∈ data.map (·.url)) by
    have h2 := h []
    simpa [urlsOf] using h2
  induction data with
  | nil => intro stats; simp
  | cons e rest ih =>
    intro stats
    rw [List.foldl_cons, ih, insertEntry_urls]
    by_cases hm : e.url ∈ urlsOf stats
    · rw [if_pos hm]
      simp only [List.map_cons, List.mem_cons]
      constructor
      · tauto
      · rintro (h | rfl | h)
        · exact Or.inl h
        · exact Or.inl hm
        · exact Or.inr h
    · rw [if_neg hm]
      simp only [List.mem_append, List.mem_cons, List.not_mem_nil, or_false,
        List.map_cons]
      tauto

/-! Transfer lemmas from the sorted output back to the accumulators. -/

theorem mem_calculate_statistics (data : List ParsedLogEntry) (rec : StatisticEntry) :
    rec ∈ calculate_statistics data ↔
      ∃ s ∈ accumulate data,
        rec = compute_metrics s data.length (data.map (·.request_time)).sum := by
  rw [calculate_statistics, List.mem_insertionSort, List.mem_map]
  constructor
  · rintro ⟨s, hs, rfl⟩
    exact ⟨s, hs, rfl⟩
  · rintro ⟨s, hs, rfl⟩
    exact ⟨s, hs, rfl⟩

theorem sum_map_count_perc (l : List URLStatistic) (c : ℚ) :
    (l.map (fun s => (s.count : ℚ) / c * 100)).sum = (sumCounts l : ℚ) / c * 100 := by
  induction l with
  | nil => simp [sumCounts]
  | cons x rest ih =>
    rw [List.map_cons, List.sum_cons, ih,
      show sumCounts (x :: rest) = x.count + sumCounts rest from rfl]
    push_cast
    ring

theorem sum_map_time_perc (l : List URLStatistic) (c : ℚ) :
    (l.map (fun s => s.time_sum / c * 100)).sum = sumTimes l / c * 100 := by
  induction l with
  | nil => simp [sumTimes]
  | cons x rest ih =>
    rw [List.map_cons, List.sum_cons, ih,
      show sumTimes (x :: rest) = x.time_sum + sumTimes rest from rfl]
    ring

/-! The claims. -/

/-- C6 counterexample: `nginx-access-ui.log-20250001` matches the filename
pattern (its date field is the 8 digits `20250001`), so by the claim
`find_latest_log` would have to return a matching entry (it is the only
one); instead the whole call raises `ValueError` (month `00`), returning
neither an entry nor `None`. -/
theorem find_latest_log_error_despite_match_cex :
    matchLogFilename (("nginx-access-ui.log-20250001").toList) =
      some ((("20250001").toList), false) ∧
    find_latest_log [("nginx-access-ui.log-20250001").toList] = .error () := by
  constructor <;> with_unfolding_all rfl

/-- C6 (amended): for every directory listing in which each
pattern-matching name carries a parseable calendar date, `find_latest_log`
(1) never matches a name with a different suffix such as `.bz2`,
(2) returns `None` when no name matches, and (3) otherwise returns an entry
of the listing that matches the pattern and whose embedded date is maximal
among all matching entries. -/
theorem find_latest_log_selects_max_date (L : List (List Char))
    (hval : ∀ name ∈ L, validFilenameDate name = true) :
    (∀ d8 : List Char, matchLogFilename (logNameLit ++ (d8 ++ (".bz2").toList)) = none) ∧
    ((∀ name ∈ L, matchLogFilename name = none) → find_latest_log L = .ok none) ∧
    (∀ name₀ ∈ L, ∀ p₀ : List Char × Bool, matchLogFilename name₀ = some p₀ →
      ∃ meta : LogFileMetadata, find_latest_log L = .ok (some meta) ∧
        meta.name ∈ L ∧
        (∃ p : List Char × Bool, matchLogFilename meta.name = some p ∧
          strptimeYmd p.1 = some meta.date) ∧
        (∀ name ∈ L, ∀ p : List Char × Bool, matchLogFilename name = some p →
          ∀ ymd, strptimeYmd p.1 = some ymd → dateKey ymd ≤ dateKey meta.date)) := by
  refine ⟨matchLogFilename_bz2_aux, ?_, ?_⟩
  · intro hnone
    rw [find_latest_log, collectLogFiles_all_none L hnone]
  · intro name₀ hmem₀ p₀ hp₀
    obtain ⟨files, hcoll, hA, hB⟩ := collectLogFiles_ok L hval
    obtain ⟨ymd₀, hymd₀⟩ := validFilenameDate_some (hval name₀ hmem₀) hp₀
    obtain ⟨f₀, hf₀, hf₀n, hf₀d⟩ := hB name₀ hmem₀ p₀ hp₀ ymd₀ hymd₀
    cases files with
    | nil => exact absurd hf₀ (List.not_mem_nil f₀)
    | cons f fs =>
      refine ⟨maxByDate f fs, ?_, ?_, ?_, ?_⟩
      · rw [find_latest_log, hcoll]
      · exact (hA _ (maxByDate_mem fs f)).1
      · exact (hA _ (maxByDate_mem fs f)).2
      · intro name hname p hp ymd hymd
        obtain ⟨g, hg, hgn, hgd⟩ := hB name hname p hp ymd hymd
        rw [← hgd]
        exact maxByDate_ge fs f g hg

/-- C6 witness: on the spec's four-name listing the selected entry exists,
matches the pattern, and dominates every matching entry's date. -/
theorem find_latest_log_selects_max_date_witness :
    ∃ meta : LogFileMetadata, find_latest_log exListing = .ok (some meta) ∧
      meta.name ∈ exListing ∧
      (∃ p : List Char × Bool, matchLogFilename meta.name = some p ∧
        strptimeYmd p.1 = some meta.date) ∧
      (∀ name ∈ exListing, ∀ p : List Char × Bool, matchLogFilename name = some p →
        ∀ ymd, strptimeYmd p.1 = some ymd → dateKey ymd ≤ dateKey meta.date) :=
  (find_latest_log_selects_max_date exListing (by decide)).2.2
    (("nginx-access-ui.log-20250214.gz").toList) (by decide)
    ((("20250214").toList), true) (by decide)

/-- C7 counterexample: on a listing holding a well-dated log name and the
pattern-matching name `nginx-access-ui.log-20259999` (month 99, so its date
is unparseable), the claim says the bad entry is excluded and no error
propagates — the call would return the `20250101` entry.  Instead
`datetime.strptime` raises and `find_latest_log` propagates the error. -/
theorem find_latest_log_invalid_date_not_excluded_cex :
    matchLogFilename (("nginx-access-ui.log-20259999").toList) =
      some ((("20259999").toList), false) ∧
    strptimeYmd (("20259999").toList) = none ∧
    find_latest_log badMonthListing = .error () := by
  refine ⟨?_, ?_, ?_⟩ <;> with_unfolding_all rfl

/-- C7 (amended): a directory entry whose name matches the filename pattern
but whose 8-digit date field is not a parseable `YYYYMMDD` calendar date is
not excluded: whenever the listing contains such an entry, the `ValueError`
from `datetime.strptime` propagates out of `find_latest_log`. -/
theorem find_latest_log_invalid_date_raises (L : List (List Char)) (name : List Char)
    (hmem : name ∈ L) (p : List Char × Bool) (hp : matchLogFilename name = some p)
    (hbad : strptimeYmd p.1 = none) : find_latest_log L = .error () := by
  suffices h : collectLogFiles L = .error () by
    rw [find_latest_log, h]
  obtain ⟨ds, gz⟩ := p
  have hp2 : matchLogFilename name = some (ds, gz) := hp
  have hbad2 : strptimeYmd ds = none := hbad
  induction hmem with
  | head rest =>
    simp only [collectLogFiles, hp2, hbad2]
  | tail x hmem2 ih =>
    cases hx : matchLogFilename x with
    | none =>
      simp only [collectLogFiles, hx]
      exact ih
    | some q =>
      obtain ⟨ds2, gz2⟩ := q
      cases hq : strptimeYmd ds2 with
      | none => simp only [collectLogFiles, hx, hq]
      | some ymd =>
        simp only [collectLogFiles, hx, hq]
        rw [ih]

/-- C7 witness: a single-entry listing whose date field is February 30
makes `find_latest_log` raise. -/
theorem find_latest_log_invalid_date_raises_witness :
    find_latest_log [("nginx-access-ui.log-20250230").toList] = .error () :=
  find_latest_log_invalid_date_raises [("nginx-access-ui.log-20250230").toList]
    (("nginx-access-ui.log-20250230").toList) (by decide)
    ((("20250230").toList), false) (by decide) (by decide)

/-- C1: a raw line whose structural prefix matches the grammar but which
lacks the trailing decimal duration still matches `LOG_LINE_PATTERN` (the
`request_time` group is optional), so `parse_log` reaches
`float(match.group('request_time'))` with `None` and a `TypeError`
propagates to the caller — the line is not counted as a parse failure.
Shown at the missing-duration fixture, under both a strict and the fully
permissive threshold (so the error is not the budget gate). -/
theorem parse_log_missing_duration_raises :
    matchLogLine (pyStrip noDurLine) = some ((("/api/data").toList), none) ∧
    parse_log [noDurLine] 1 = .error .typeError ∧
    parse_log [noDurLine] (1/10) = .error .typeError := by
  refine ⟨?_, ?_, ?_⟩ <;> with_unfolding_all rfl

/-- C2: the error-budget gate evaluated at the spec's two boundary
fixtures, after full consumption: 3 lines / 3 failures at threshold `0.2`
fails with `error_rate = 1`, 4 lines / 3 failures at threshold `0.25`
fails with `error_rate = 0.75` (and delivers no observation), while the
same 4 lines at threshold `0.75` pass (`0.75 > 0.75` is false) and deliver
the one parsed observation.  The raised error carries only the rate and
the threshold — `ValueError` is built from a message formatted from those
two values; `total_lines` and `errors` are only logged. -/
theorem parse_log_gate_boundary :
    parse_log [invLine, invLine, invLine] (1/5) =
      .error (.thresholdExceeded 1 (1/5)) ∧
    parse_log [invLine, invLine, validGateLine, invLine] (1/4) =
      .error (.thresholdExceeded (3/4) (1/4)) ∧
    parse_log [invLine, invLine, validGateLine, invLine] (3/4) =
      .ok [⟨("/api/data").toList, 3/20⟩] := by
  refine ⟨?_, ?_, ?_⟩ <;> with_unfolding_all rfl

/-- C8: an empty line stream raises nothing for any threshold and yields no
observations, and the aggregator maps the empty observation sequence to an
empty record list. -/
theorem parse_log_empty_stream :
    (∀ error_threshold : ℚ, parse_log [] error_threshold = .ok []) ∧
    calculate_statistics [] = [] :=
  ⟨fun _ => rfl, rfl⟩

/-- C3: the `count` fields of the aggregator output sum to the number of
input observations, and the output URLs are exactly the distinct input
URLs. -/
theorem calculate_statistics_counts_and_urls (data : List ParsedLogEntry) :
    ((calculate_statistics data).map (·.count)).sum = data.length ∧
    (∀ u, u ∈ (calculate_statistics data).map (·.url) ↔ u ∈ data.map (·.url)) := by
  have hperm : List.Perm (calculate_statistics data)
      ((accumulate data).map
        (fun s => compute_metrics s data.length (data.map (·.request_time)).sum)) :=
    List.perm_insertionSort statGE _
  constructor
  · rw [(hperm.map (·.count)).sum_eq, List.map_map,
      show ((fun r : StatisticEntry => r.count) ∘
        fun s => compute_metrics s data.length (data.map (·.request_time)).sum) =
        (fun s : URLStatistic => s.count) from rfl,
      ← accumulate_sumCounts data]
    rfl
  · intro u
    rw [(hperm.map (·.url)).mem_iff, List.map_map,
      show ((fun r : StatisticEntry => r.url) ∘
        fun s => compute_metrics s data.length (data.map (·.request_time)).sum) =
        (fun s : URLStatistic => s.url) from rfl]
    exact accumulate_urls_mem data u

/-- C4: the aggregator output is sorted by `time_sum` in non-increasing
order: each record's `time_sum` is at least the next one's. -/
theorem calculate_statistics_sorted_by_time_sum (data : List ParsedLogEntry) (i : ℕ)
    (h : i + 1 < (calculate_statistics data).length) :
    ((calculate_statistics data).get ⟨i + 1, h⟩).time_sum ≤
      ((calculate_statistics data).get ⟨i, Nat.lt_of_succ_lt h⟩).time_sum := by
  have hs : List.Sorted statGE (calculate_statistics data) :=
    List.sorted_insertionSort statGE _
  have h2 := hs.rel_get_of_lt (a := ⟨i, Nat.lt_of_succ_lt h⟩) (b := ⟨i + 1, h⟩)
    (by simp [Fin.lt_def])
  exact h2

/-- C4 witness: on a two-URL input the first output record's `time_sum`
dominates the second's. -/
theorem calculate_statistics_sorted_by_time_sum_witness :
    ((calculate_statistics exTwo).get ⟨1, by with_unfolding_all decide⟩).time_sum ≤
      ((calculate_statistics exTwo).get ⟨0, by with_unfolding_all decide⟩).time_sum :=
  calculate_statistics_sorted_by_time_sum exTwo 0 (by with_unfolding_all decide)

/-- C5: every output record's `time_med` is the statistical median
(`medianQ`, the sort-and-middle/mean-of-middles definition of
`statistics.median`) of that URL's duration collection; in particular the
durations `[1.0, 1.5, 2.0]` give `time_med = 1.5`, `[0.2, 0.3, 0.5]` give
`time_med = 0.3`, and the even-sized `[1, 2]` gives `1.5`. -/
theorem calculate_statistics_time_med :
    (∀ (data : List ParsedLogEntry), ∀ rec ∈ calculate_statistics data,
      rec.time_med = medianQ (durationsOf rec.url data)) ∧
    (calculate_statistics exHome).map (·.time_med) = [3/2] ∧
    (calculate_statistics exApiTest).map (·.time_med) = [3/10] ∧
    (calculate_statistics exEven).map (·.time_med) = [3/2] := by
  refine ⟨?_, by with_unfolding_all rfl, by with_unfolding_all rfl, by with_unfolding_all rfl⟩
  intro data rec hrec
  rw [mem_calculate_statistics] at hrec
  obtain ⟨s, hs, rfl⟩ := hrec
  obtain ⟨hseq, hne⟩ := mem_accumulate_eq data s hs
  have htimes : s.times = durationsOf s.url data := congrArg URLStatistic.times hseq
  have hne2 : s.times ≠ [] := by rw [htimes]; exact hne
  show (if s.times ≠ [] then medianQ s.times else 0) = medianQ (durationsOf s.url data)
  rw [if_pos hne2, htimes]

/-- C5 witness: the single `/home` record of the `[1.0, 1.5, 2.0]` run is
in the output and its `time_med` is the median of that URL's durations. -/
theorem calculate_statistics_time_med_witness :
    (⟨("/home").toList, 3, 100, 9/2, 100, 3/2, 2, 3/2⟩ : StatisticEntry) ∈
        calculate_statistics exHome ∧
    (⟨("/home").toList, 3, 100, 9/2, 100, 3/2, 2, 3/2⟩ : StatisticEntry).time_med =
      medianQ (durationsOf (("/home").toList) exHome) := by
  refine ⟨by with_unfolding_all decide, ?_⟩
  exact calculate_statistics_time_med.1 exHome _ (by with_unfolding_all decide)

/-- C9: for a non-empty input the `count_perc` fields sum to exactly 100,
and when the total duration is positive the `time_perc` fields sum to
exactly 100 (rational arithmetic is exact). -/
theorem calculate_statistics_percentages (data : List ParsedLogEntry) (hne : data ≠ []) :
    ((calculate_statistics data).map (·.count_perc)).sum = 100 ∧
    (0 < (data.map (·.request_time)).sum →
      ((calculate_statistics data).map (·.time_perc)).sum = 100) := by
  have hlen : data.length ≠ 0 := fun hc => hne (List.length_eq_zero.mp hc)
  have hcast : ((data.length : ℕ) : ℚ) ≠ 0 := Nat.cast_ne_zero.mpr hlen
  have hperm : List.Perm (calculate_statistics data)
      ((accumulate data).map
        (fun s => compute_metrics s data.length (data.map (·.request_time)).sum)) :=
    List.perm_insertionSort statGE _
  constructor
  · rw [(hperm.map (·.count_perc)).sum_eq, List.map_map]
    have hfun : ((fun r : StatisticEntry => r.count_perc) ∘
        fun s => compute_metrics s data.length (data.map (·.request_time)).sum) =
        fun s : URLStatistic => (s.count : ℚ) / (data.length : ℚ) * 100 := by
      funext s
      show (if data.length ≠ 0 then ((s.count : ℚ) / (data.length : ℚ)) * 100 else 0) = _
      rw [if_pos hlen]
    rw [hfun, sum_map_count_perc, accumulate_sumCounts, div_self hcast, one_mul]
  · intro hpos
    have ht : (data.map (·.request_time)).sum ≠ 0 := ne_of_gt hpos
    rw [(hperm.map (·.time_perc)).sum_eq, List.map_map]
    have hfun : ((fun r : StatisticEntry => r.time_perc) ∘
        fun s => compute_metrics s data.length (data.map (·.request_time)).sum) =
        fun s : URLStatistic => s.time_sum / (data.map (·.request_time)).sum * 100 := by
      funext s
      show (if (data.map (·.request_time)).sum ≠ 0 then
          (s.time_sum / (data.map (·.request_time)).sum) * 100 else 0) = _
      rw [if_pos ht]
    rw [hfun, sum_map_time_perc, accumulate_sumTimes, div_self ht, one_mul]

/-- C9 witness: both percentage columns of the two-URL example sum to 100
(total duration 9 is positive). -/
theorem calculate_statistics_percentages_witness :
    ((calculate_statistics exTwo).map (·.count_perc)).sum = 100 ∧
    ((calculate_statistics exTwo).map (·.time_perc)).sum = 100 :=
  ⟨(calculate_statistics_percentages exTwo (by with_unfolding_all decide)).1,
   (calculate_statistics_percentages exTwo (by with_unfolding_all decide)).2
     (by with_unfolding_all decide)⟩

/-- C10: every output record has `count ≥ 1` (an accumulator exists only
after at least one observation of its URL), so the `count = 0` fallback of
`time_avg` is unreachable and `time_avg = time_sum / count` holds for every
record. -/
theorem calculate_statistics_count_pos_time_avg (data : List ParsedLogEntry)
    (rec : StatisticEntry) (hmem : rec ∈ calculate_statistics data) :
    1 ≤ rec.count ∧ rec.time_avg = rec.time_sum / (rec.count : ℚ) := by
  rw [mem_calculate_statistics] at hmem
  obtain ⟨s, hs, rfl⟩ := hmem
  obtain ⟨hseq, hne⟩ := mem_accumulate_eq data s hs
  have hcount : s.count = (durationsOf s.url data).length :=
    congrArg URLStatistic.count hseq
  have hpos : 1 ≤ s.count := by
    rw [hcount]
    have h2 := List.length_pos.mpr hne
    omega
  refine ⟨hpos, ?_⟩
  have hc0 : s.count ≠ 0 := by omega
  show (if s.count ≠ 0 then s.time_sum / (s.count : ℚ) else 0) = s.time_sum / (s.count : ℚ)
  rw [if_pos hc0]

/-- C10 witness: the `/home` record of the three-observation run has a
positive count and `time_avg = time_sum / count`. -/
theorem calculate_statistics_count_pos_time_avg_witness :
    1 ≤ (⟨("/home").toList, 3, 100, 9/2, 100, 3/2, 2, 3/2⟩ : StatisticEntry).count ∧
    (⟨("/home").toList, 3, 100, 9/2, 100, 3/2, 2, 3/2⟩ : StatisticEntry).time_avg =
      (⟨("/home").toList, 3, 100, 9/2, 100, 3/2, 2, 3/2⟩ : StatisticEntry).time_sum /
        ((⟨("/home").toList, 3, 100, 9/2, 100, 3/2, 2, 3/2⟩ : StatisticEntry).count : ℚ) :=
  calculate_statistics_count_pos_time_avg exHome _ (by with_unfolding_all decide)
